import Mathlib

/-!
Verification of the flashcard scheduling core (src/algorithm.ts).

The TypeScript source manipulates three kinds of values:

* `Flashcard`: compared only by reference identity, so each card is
  modelled by a numeric id (`Card := Nat`).
* `Set<Flashcard>`: modelled as its list of elements in insertion order;
  a genuine JS `Set` never holds duplicates.
* `Map<number, Set<Flashcard>>` (the `BucketMap`): modelled as an
  association list in insertion order.

The functions `toBucketSets`, `getBucketRange`, `practice` and
`computeProgress` never mutate reachable state, so they are embedded as
pure functions.  `update` mutates `Set` objects that may be shared
between maps (`new Map(buckets)` copies only the top level), so it is
embedded in store-passing style: a `Store` is a heap of sets addressed
by `SetRef`s, and a `BucketMap` holds refs into the store.
-/

namespace Flashcards

/-- Cards are compared by reference identity in the source (JS `Set.has`
uses object identity), so a card is just an id. -/
abbrev Card := Nat

/-- Contents of a JS `Set<Flashcard>`: its elements in insertion order. -/
abbrev CardSet := List Card

/-- The three answer qualities of `AnswerDifficulty` in flashcards.ts. -/
inductive AnswerDifficulty : Type where
  | Wrong : AnswerDifficulty
  | Hard : AnswerDifficulty
  | Easy : AnswerDifficulty
  deriving DecidableEq

/-- JS `Set.add`: appends the element unless it is already present. -/
def setAdd (s : CardSet) (c : Card) : CardSet :=
  if s.contains c then s else s ++ [c]

/-- JS `Map.get` on a map with numeric keys: the value of the first (and
in a real `Map`, only) entry with the given key. -/
def jsMapGet {τ : Type} (m : List (Nat × τ)) (k : Nat) : Option τ :=
  (m.find? (fun e => e.1 == k)).map Prod.snd

/-! ### Pure functions on the dense array representation -/

/-- Loop of `toBucketSets` computing `maxBucket` (algorithm.ts lines
23-28): the running maximum of the keys, starting from 0. -/
def maxKeyOf (m : List (Nat × CardSet)) : Nat :=
  m.foldl (fun acc e => if acc < e.1 then e.1 else acc) 0

/-- `toBucketSets` (algorithm.ts lines 21-35): slot `i` of the result is
`buckets.get(i) || new Set()` for `i = 0 .. maxBucket`. -/
def toBucketSets (m : List (Nat × CardSet)) : List CardSet :=
  (List.range (maxKeyOf m + 1)).map (fun i => (jsMapGet m i).getD [])

/-- Loop body of `getBucketRange` (algorithm.ts lines 50-55): update the
running minimum and maximum with index `i` when bucket `i` is non-empty.
`none` stands for the untouched `Infinity` / `-Infinity` sentinels. -/
def rangeStep (buckets : List CardSet) (mm : Option Nat × Option Nat) (i : Nat) :
    Option Nat × Option Nat :=
  if (buckets.getD i []).length > 0 then
    (match mm.1 with
     | none => some i
     | some v => if i < v then some i else some v,
     match mm.2 with
     | none => some i
     | some v => if v < i then some i else some v)
  else mm

/-- `getBucketRange` (algorithm.ts lines 45-58): scan all indices, then
return `undefined` when the minimum was never updated. -/
def getBucketRange (buckets : List CardSet) : Option (Nat × Nat) :=
  let mm := (List.range buckets.length).foldl (rangeStep buckets) (none, none)
  match mm.1, mm.2 with
  | some mn, some mx => some (mn, mx)
  | _, _ => none

/-- Index `i` is occupied when the set in slot `i` is non-empty — the
test `buckets[i]!.size > 0` of `getBucketRange`. -/
def occupied (buckets : List CardSet) (i : Nat) : Prop :=
  (buckets.getD i []).length > 0

instance (buckets : List CardSet) (i : Nat) : Decidable (occupied buckets i) := by
  unfold occupied; infer_instance

/-- Inner loop of `practice` for one bucket: add every card of `s` to the
result set. -/
def addAll (result : CardSet) (s : CardSet) : CardSet :=
  s.foldl setAdd result

/-- Loop body of `practice` (algorithm.ts lines 74-88): bucket 0 is
always practiced, bucket `i ≥ 1` only when `day % 2 ** i === 0`. -/
def practiceStep (buckets : List CardSet) (day : Nat) (result : CardSet) (i : Nat) : CardSet :=
  if i = 0 then addAll result (buckets.getD i [])
  else if day % 2 ^ i = 0 then addAll result (buckets.getD i []) else result

/-- `practice` (algorithm.ts lines 69-90). -/
def practice (buckets : List CardSet) (day : Nat) : CardSet :=
  (List.range buckets.length).foldl (practiceStep buckets day) []

/-- Result record of `computeProgress`. -/
structure Progress where
  totalCards : Nat
  learnedCards : Nat
  bucketDistribution : List Nat
  deriving DecidableEq

/-- `computeProgress` (algorithm.ts lines 168-186): one pass accumulates
the total and the per-bucket counts; `learnedCards` subtracts the size
of bucket 0 (`buckets[0]?.size || 0`).  The `history` parameter is
accepted and never read, exactly as in the source. -/
def computeProgress {α : Type} (buckets : List CardSet) (history : α) : Progress :=
  let td := buckets.foldl (fun acc s => (acc.1 + s.length, acc.2 ++ [s.length]))
    ((0 : Nat), ([] : List Nat))
  { totalCards := td.1
    learnedCards := td.1 - (buckets.getD 0 []).length
    bucketDistribution := td.2 }

/-! ### Store-passing model of `update`

`update` builds `new Map(buckets)` — a copy of the key/ref pairs that
still points at the *same* `Set` objects — and then calls `delete` and
`add` on those shared sets.  A `Store` records the current contents of
every `Set` object; both the original map and the returned map read
their sets through it. -/

/-- Address of a `Set<Flashcard>` object in the heap. -/
abbrev SetRef := Nat

/-- Heap of `Set` objects: contents listed by address. -/
abbrev Store := List CardSet

/-- A `BucketMap` value: key/set-object pairs in insertion order. -/
abbrev BucketMap := List (Nat × SetRef)

/-- Current contents of the set object at address `r`. -/
def storeGet (st : Store) (r : SetRef) : CardSet :=
  st.getD r []

/-- Scan of algorithm.ts lines 107-117: the key of the first bucket
whose set contains the card, or 0 when no bucket does. -/
def findCurrentBucket (st : Store) (m : BucketMap) (c : Card) : Nat :=
  match m.find? (fun e => (storeGet st e.2).contains c) with
  | some e => e.1
  | none => 0

/-- The `if`/`else if`/`else` chain of algorithm.ts lines 125-133. -/
def newBucketIndex (difficulty : AnswerDifficulty) (currentBucket : Nat) : Nat :=
  match difficulty with
  | .Easy => currentBucket + 1
  | .Hard => currentBucket
  | .Wrong => 0

/-- `update` (algorithm.ts lines 101-143) in store-passing style.
`new Map(buckets)` copies only the key/ref pairs, so `newBuckets` is the
same association list; `delete` and `add` act on the store.  When the
destination bucket has no set yet, a fresh set object is allocated at
the end of the store and the pair is appended to the map (JS `Map.set`
appends new keys in insertion order). -/
def update (st : Store) (m : BucketMap) (card : Card) (difficulty : AnswerDifficulty) :
    Store × BucketMap :=
  let currentBucket := findCurrentBucket st m card
  let newBuckets : BucketMap := m
  let st1 : Store :=
    match jsMapGet newBuckets currentBucket with
    | some r => st.set r ((storeGet st r).erase card)
    | none => st
  let newBucket := newBucketIndex difficulty currentBucket
  match jsMapGet newBuckets newBucket with
  | some r => (st1.set r (setAdd (storeGet st1 r) card), newBuckets)
  | none => (st1 ++ [[card]], newBuckets ++ [(newBucket, st1.length)])

/-- The map `m` reports card `c` as a member of bucket `b`, reading the
set objects through store `st`. -/
def memBucket (st : Store) (m : BucketMap) (b : Nat) (c : Card) : Bool :=
  match jsMapGet m b with
  | some r => (storeGet st r).contains c
  | none => false

/-- Well-formed heap-allocated bucket map: keys are unique (a JS `Map`
cannot repeat keys), distinct buckets are distinct `Set` objects, every
ref is allocated, and set objects hold no duplicates (JS `Set`s never
do). -/
def wfMap (st : Store) (m : BucketMap) : Prop :=
  (m.map Prod.fst).Nodup ∧ (m.map Prod.snd).Nodup ∧
  (∀ e ∈ m, e.2 < st.length) ∧ (∀ e ∈ m, (storeGet st e.2).Nodup)

instance (st : Store) (m : BucketMap) : Decidable (wfMap st m) := by
  unfold wfMap; infer_instance

/-- Every card lies in at most one bucket: sets of buckets with distinct
keys are disjoint. -/
def disjointBuckets (st : Store) (m : BucketMap) : Prop :=
  ∀ e1 ∈ m, ∀ e2 ∈ m, e1.1 ≠ e2.1 → ∀ x ∈ storeGet st e1.2, x ∉ storeGet st e2.2

instance (st : Store) (m : BucketMap) : Decidable (disjointBuckets st m) := by
  unfold disjointBuckets; infer_instance

/-! ### Lemmas about sets -/

theorem mem_setAdd {s : CardSet} {c x : Card} : x ∈ setAdd s c ↔ x ∈ s ∨ x = c := by
  unfold setAdd
  by_cases h : s.contains c = true
  · rw [if_pos h]
    have hc : c ∈ s := by simpa using h
    constructor
    · exact Or.inl
    · rintro (hx | rfl)
      · exact hx
      · exact hc
  · rw [if_neg h]
    simp [List.mem_append]

theorem self_mem_setAdd (s : CardSet) (c : Card) : c ∈ setAdd s c := by
  rw [mem_setAdd]; exact Or.inr rfl

theorem mem_erase_iff_of_ne {s : CardSet} {c x : Card} (h : x ≠ c) :
    x ∈ s.erase c ↔ x ∈ s :=
  List.mem_erase_of_ne h

theorem not_mem_erase_self {s : CardSet} {c : Card} (h : s.Nodup) : c ∉ s.erase c :=
  fun hb => ((List.Nodup.mem_erase_iff h).mp hb).1 rfl

/-! ### Lemmas about the store -/

theorem storeGet_cons_succ (a : CardSet) (t : Store) (r : SetRef) :
    storeGet (a :: t) (r + 1) = storeGet t r := rfl

theorem storeGet_set_self (st : Store) (r : SetRef) (l : CardSet) (h : r < st.length) :
    storeGet (st.set r l) r = l := by
  induction st generalizing r with
  | nil => exact absurd h (by simp)
  | cons a t ih =>
    cases r with
    | zero => rfl
    | succ r =>
      rw [List.set_cons_succ, storeGet_cons_succ]
      exact ih r (by simpa using h)

theorem storeGet_set_ne (st : Store) (r : SetRef) (l : CardSet) (j : SetRef) (h : j ≠ r) :
    storeGet (st.set r l) j = storeGet st j := by
  unfold storeGet
  rw [List.getD_eq_getElem?_getD, List.getD_eq_getElem?_getD, List.getElem?_set_ne (Ne.symm h)]

theorem length_storeSet (st : Store) (r : SetRef) (l : CardSet) :
    (st.set r l).length = st.length := by simp

theorem storeGet_append_lt (st st2 : Store) (r : SetRef) (h : r < st.length) :
    storeGet (st ++ st2) r = storeGet st r := by
  unfold storeGet
  rw [List.getD_eq_getElem?_getD, List.getD_eq_getElem?_getD, List.getElem?_append,
    if_pos h]

theorem storeGet_append_self (st : Store) (l : CardSet) :
    storeGet (st ++ [l]) st.length = l := by
  unfold storeGet
  rw [List.getD_eq_getElem?_getD, List.getElem?_append_right (Nat.le_refl _)]
  simp

/-! ### Lemmas about JS map lookup -/

theorem jsMapGet_cons_self {τ : Type} (e : Nat × τ) (t : List (Nat × τ)) :
    jsMapGet (e :: t) e.1 = some e.2 := by
  unfold jsMapGet
  rw [List.find?_cons_of_pos _ (by simp)]
  rfl

theorem jsMapGet_cons_ne {τ : Type} (e : Nat × τ) (t : List (Nat × τ)) (k : Nat)
    (h : e.1 ≠ k) : jsMapGet (e :: t) k = jsMapGet t k := by
  unfold jsMapGet
  rw [List.find?_cons_of_neg _ (by simpa using h)]

theorem mem_of_jsMapGet_eq_some {τ : Type} {m : List (Nat × τ)} {k : Nat} {v : τ}
    (h : jsMapGet m k = some v) : (k, v) ∈ m := by
  unfold jsMapGet at h
  cases hf : m.find? (fun e => e.1 == k) with
  | none => rw [hf] at h; simp at h
  | some e =>
    rw [hf] at h
    have he : e ∈ m := List.mem_of_find?_eq_some hf
    have hk : e.1 = k := by simpa using List.find?_some hf
    have hv : e.2 = v := by simpa using h
    have : e = (k, v) := by
      cases e; simp_all
    rw [← this]; exact he

theorem jsMapGet_eq_some_of_mem {τ : Type} {m : List (Nat × τ)} {k : Nat} {v : τ}
    (hnd : (m.map Prod.fst).Nodup) (hmem : (k, v) ∈ m) : jsMapGet m k = some v := by
  induction m with
  | nil => simp at hmem
  | cons e t ih =>
    by_cases hk : e.1 = k
    · have : e = (k, v) := by
        rcases List.mem_cons.mp hmem with h | h
        · exact h.symm
        · exfalso
          have : k ∈ t.map Prod.fst := List.mem_map.mpr ⟨(k, v), h, rfl⟩
          rw [← hk] at this
          exact (List.nodup_cons.mp hnd).1 this
      subst this
      simpa using jsMapGet_cons_self (k, v) t
    · have hmem2 : (k, v) ∈ t := by
        rcases List.mem_cons.mp hmem with h | h
        · exact absurd (by rw [← h]) hk
        · exact h
      rw [jsMapGet_cons_ne e t k hk]
      exact ih (List.nodup_cons.mp hnd).2 hmem2

theorem jsMapGet_eq_none_iff {τ : Type} (m : List (Nat × τ)) (k : Nat) :
    jsMapGet m k = none ↔ ∀ e ∈ m, e.1 ≠ k := by
  unfold jsMapGet
  cases hf : m.find? (fun e => e.1 == k) with
  | none =>
    simp only [Option.map_none', true_iff]
    intro e he
    have := List.find?_eq_none.mp hf e he
    simpa using this
  | some e =>
    simp only [Option.map_some']
    constructor
    · intro h; simp at h
    · intro h
      exfalso
      have he : e ∈ m := List.mem_of_find?_eq_some hf
      have hk : e.1 = k := by simpa using List.find?_some hf
      exact h e he hk

theorem jsMapGet_append_of_some {τ : Type} {m m2 : List (Nat × τ)} {k : Nat} {v : τ}
    (h : jsMapGet m k = some v) : jsMapGet (m ++ m2) k = some v := by
  unfold jsMapGet at h ⊢
  cases hf : m.find? (fun e => e.1 == k) with
  | none => rw [hf] at h; simp at h
  | some e =>
    rw [hf] at h
    rw [List.find?_append, hf]
    simpa using h

theorem jsMapGet_append_of_none {τ : Type} {m m2 : List (Nat × τ)} {k : Nat}
    (h : jsMapGet m k = none) : jsMapGet (m ++ m2) k = jsMapGet m2 k := by
  unfold jsMapGet at h ⊢
  cases hf : m.find? (fun e => e.1 == k) with
  | none => rw [List.find?_append, hf]; rfl
  | some e => rw [hf] at h; simp at h

theorem jsMapGet_singleton_self {τ : Type} (k : Nat) (v : τ) :
    jsMapGet [(k, v)] k = some v :=
  jsMapGet_cons_self (k, v) []

theorem jsMapGet_singleton_ne {τ : Type} (k j : Nat) (v : τ) (h : k ≠ j) :
    jsMapGet [(k, v)] j = none := by
  rw [jsMapGet_cons_ne (k, v) [] j h]; rfl

theorem storeGet_set_cases (st : Store) (r : SetRef) (l : CardSet) (j : SetRef)
    (hr : r < st.length) :
    storeGet (st.set r l) j = if j = r then l else storeGet st j := by
  by_cases h : j = r
  · rw [if_pos h, h]; exact storeGet_set_self st r l hr
  · rw [if_neg h]; exact storeGet_set_ne st r l j h

/-- Entries of a well-formed map with the same key coincide. -/
theorem entry_eq_of_fst {m : BucketMap} (hkeys : (m.map Prod.fst).Nodup)
    {e1 e2 : Nat × SetRef} (h1 : e1 ∈ m) (h2 : e2 ∈ m) (h : e1.1 = e2.1) : e1 = e2 :=
  List.inj_on_of_nodup_map hkeys h1 h2 h

/-- Entries of a well-formed map with the same set object coincide. -/
theorem entry_eq_of_snd {m : BucketMap} (hrefs : (m.map Prod.snd).Nodup)
    {e1 e2 : Nat × SetRef} (h1 : e1 ∈ m) (h2 : e2 ∈ m) (h : e1.2 = e2.2) : e1 = e2 :=
  List.inj_on_of_nodup_map hrefs h1 h2 h

theorem memBucket_of_get_some {st : Store} {m : BucketMap} {j : Nat} {r : SetRef}
    (hj : jsMapGet m j = some r) (x : Card) :
    memBucket st m j x = true ↔ x ∈ storeGet st r := by
  unfold memBucket
  rw [hj]
  simp

theorem memBucket_of_get_none {st : Store} {m : BucketMap} {j : Nat}
    (hj : jsMapGet m j = none) (x : Card) : memBucket st m j x = false := by
  unfold memBucket
  rw [hj]

/-! ### Lemmas about the bucket scan of `update` -/

theorem findCurrentBucket_eq_zero (st : Store) (m : BucketMap) (c : Card)
    (h : ∀ e ∈ m, c ∉ storeGet st e.2) :
    findCurrentBucket st m c = 0 := by
  have hf : m.find? (fun e => (storeGet st e.2).contains c) = none :=
    List.find?_eq_none.mpr (fun e he => by simpa using h e he)
  unfold findCurrentBucket
  rw [hf]

theorem findCurrentBucket_eq (st : Store) (m : BucketMap) (c : Card) (b : Nat)
    (hb : memBucket st m b c = true)
    (honly : ∀ e ∈ m, c ∈ storeGet st e.2 → e.1 = b) :
    findCurrentBucket st m c = b := by
  unfold memBucket at hb
  cases hr : jsMapGet m b with
  | none => rw [hr] at hb; simp at hb
  | some r =>
    rw [hr] at hb
    have hcr : c ∈ storeGet st r := by simpa using hb
    have hmem : (b, r) ∈ m := mem_of_jsMapGet_eq_some hr
    unfold findCurrentBucket
    cases hf : m.find? (fun e => (storeGet st e.2).contains c) with
    | none =>
      exfalso
      have := List.find?_eq_none.mp hf (b, r) hmem
      simp at this
      exact this hcr
    | some e =>
      have he : e ∈ m := List.mem_of_find?_eq_some hf
      have hpe : c ∈ storeGet st e.2 := by simpa using List.find?_some hf
      exact honly e he hpe

/-! ### The add step of `update`, for cards other than the updated one -/

theorem memBucket_addSome_ne (st st1 : Store) (m : BucketMap) (c x : Card) (nb : Nat)
    (radd : SetRef)
    (hvalid : ∀ e ∈ m, e.2 < st.length)
    (hadd : jsMapGet m nb = some radd)
    (hx : x ≠ c)
    (hlen : st1.length = st.length)
    (hst1 : ∀ rr, rr < st.length → (x ∈ storeGet st1 rr ↔ x ∈ storeGet st rr))
    (j : Nat) :
    memBucket (st1.set radd (setAdd (storeGet st1 radd) c)) m j x = true ↔
      memBucket st m j x = true := by
  have hraddv : radd < st.length := hvalid _ (mem_of_jsMapGet_eq_some hadd)
  cases hj : jsMapGet m j with
  | none => rw [memBucket_of_get_none hj, memBucket_of_get_none hj]
  | some rj =>
    have hrjv : rj < st.length := hvalid _ (mem_of_jsMapGet_eq_some hj)
    rw [memBucket_of_get_some hj, memBucket_of_get_some hj,
      storeGet_set_cases st1 radd _ rj (hlen ▸ hraddv)]
    by_cases hrr : rj = radd
    · subst hrr
      rw [if_pos rfl, mem_setAdd, or_iff_left hx]
      exact hst1 rj hrjv
    · rw [if_neg hrr]
      exact hst1 rj hrjv

theorem memBucket_addNone_ne (st st1 : Store) (m : BucketMap) (c x : Card) (nb : Nat)
    (hvalid : ∀ e ∈ m, e.2 < st.length)
    (hx : x ≠ c)
    (hlen : st1.length = st.length)
    (hst1 : ∀ rr, rr < st.length → (x ∈ storeGet st1 rr ↔ x ∈ storeGet st rr))
    (j : Nat) :
    memBucket (st1 ++ [[c]]) (m ++ [(nb, st1.length)]) j x = true ↔
      memBucket st m j x = true := by
  cases hj : jsMapGet m j with
  | some rj =>
    have hrjv : rj < st.length := hvalid _ (mem_of_jsMapGet_eq_some hj)
    rw [memBucket_of_get_some (jsMapGet_append_of_some hj), memBucket_of_get_some hj,
      storeGet_append_lt st1 [[c]] rj (hlen ▸ hrjv)]
    exact hst1 rj hrjv
  | none =>
    rw [memBucket_of_get_none hj]
    have happ : jsMapGet (m ++ [(nb, st1.length)]) j = jsMapGet [(nb, st1.length)] j :=
      jsMapGet_append_of_none hj
    by_cases hnj : nb = j
    · subst hnj
      have hget : jsMapGet (m ++ [(nb, st1.length)]) nb = some st1.length := by
        rw [happ]; exact jsMapGet_singleton_self nb st1.length
      rw [memBucket_of_get_some hget, storeGet_append_self]
      simp [hx]
    · have hget : jsMapGet (m ++ [(nb, st1.length)]) j = none := by
        rw [happ]; exact jsMapGet_singleton_ne nb j _ hnj
      rw [memBucket_of_get_none hget]

/-- Frame property of `update` on the returned map: the buckets of every
card other than the updated one are unchanged (as seen through the final
store). -/
theorem update_preserves_other_cards (st : Store) (m : BucketMap) (c x : Card)
    (q : AnswerDifficulty) (hwf : wfMap st m) (hx : x ≠ c) (j : Nat) :
    memBucket (update st m c q).1 (update st m c q).2 j x = true ↔
      memBucket st m j x = true := by
  obtain ⟨hkeys, hrefs, hvalid, hnodup⟩ := hwf
  cases hf : m.find? (fun e => (storeGet st e.2).contains c) with
  | some e =>
    have he : e ∈ m := List.mem_of_find?_eq_some hf
    have hcur : findCurrentBucket st m c = e.1 := by
      unfold findCurrentBucket; rw [hf]
    have hee : (e.1, e.2) ∈ m := by rw [Prod.mk.eta]; exact he
    have hre : jsMapGet m e.1 = some e.2 := jsMapGet_eq_some_of_mem hkeys hee
    have hev : e.2 < st.length := hvalid e he
    set st1 := st.set e.2 ((storeGet st e.2).erase c) with hst1def
    have hlen : st1.length = st.length := by rw [hst1def]; exact length_storeSet st e.2 _
    have hst1 : ∀ rr, rr < st.length → (x ∈ storeGet st1 rr ↔ x ∈ storeGet st rr) := by
      intro rr hrr
      rw [hst1def, storeGet_set_cases st e.2 _ rr hev]
      by_cases hre2 : rr = e.2
      · rw [if_pos hre2, hre2]
        exact mem_erase_iff_of_ne hx
      · rw [if_neg hre2]
    cases hadd : jsMapGet m (newBucketIndex q e.1) with
    | some radd =>
      have hupd : update st m c q = (st1.set radd (setAdd (storeGet st1 radd) c), m) := by
        rw [hst1def]
        simp only [update]
        rw [hcur, hre, hadd]
      rw [hupd]
      exact memBucket_addSome_ne st st1 m c x _ radd hvalid hadd hx hlen hst1 j
    | none =>
      have hupd : update st m c q =
          (st1 ++ [[c]], m ++ [(newBucketIndex q e.1, st1.length)]) := by
        rw [hst1def]
        simp only [update]
        rw [hcur, hre, hadd]
      rw [hupd]
      exact memBucket_addNone_ne st st1 m c x _ hvalid hx hlen hst1 j
  | none =>
    have hnf : ∀ e ∈ m, c ∉ storeGet st e.2 := by
      intro e he
      have := List.find?_eq_none.mp hf e he
      simpa using this
    have hcur : findCurrentBucket st m c = 0 := by
      unfold findCurrentBucket; rw [hf]
    cases hdel : jsMapGet m 0 with
    | some r0 =>
      have hr0 : (0, r0) ∈ m := mem_of_jsMapGet_eq_some hdel
      have hc0 : c ∉ storeGet st r0 := hnf _ hr0
      have herase : (storeGet st r0).erase c = storeGet st r0 := List.erase_of_not_mem hc0
      have hr0v : r0 < st.length := hvalid _ hr0
      set st1 := st.set r0 ((storeGet st r0).erase c) with hst1def
      have hlen : st1.length = st.length := by rw [hst1def]; exact length_storeSet st r0 _
      have hst1x : ∀ rr, rr < st.length → storeGet st1 rr = storeGet st rr := by
        intro rr hrr
        rw [hst1def, storeGet_set_cases st r0 _ rr hr0v]
        by_cases h2 : rr = r0
        · rw [if_pos h2, h2, herase]
        · rw [if_neg h2]
      have hst1 : ∀ rr, rr < st.length → (x ∈ storeGet st1 rr ↔ x ∈ storeGet st rr) :=
        fun rr hrr => by rw [hst1x rr hrr]
      cases hadd : jsMapGet m (newBucketIndex q 0) with
      | some radd =>
        have hupd : update st m c q = (st1.set radd (setAdd (storeGet st1 radd) c), m) := by
          rw [hst1def]
          simp only [update]
          rw [hcur, hdel, hadd]
        rw [hupd]
        exact memBucket_addSome_ne st st1 m c x _ radd hvalid hadd hx hlen hst1 j
      | none =>
        have hupd : update st m c q =
            (st1 ++ [[c]], m ++ [(newBucketIndex q 0, st1.length)]) := by
          rw [hst1def]
          simp only [update]
          rw [hcur, hdel, hadd]
        rw [hupd]
        exact memBucket_addNone_ne st st1 m c x _ hvalid hx hlen hst1 j
    | none =>
      have hst1 : ∀ rr, rr < st.length → (x ∈ storeGet st rr ↔ x ∈ storeGet st rr) :=
        fun rr hrr => Iff.rfl
      cases hadd : jsMapGet m (newBucketIndex q 0) with
      | some radd =>
        have hupd : update st m c q = (st.set radd (setAdd (storeGet st radd) c), m) := by
          simp only [update]
          rw [hcur, hdel, hadd]
        rw [hupd]
        exact memBucket_addSome_ne st st m c x _ radd hvalid hadd hx rfl hst1 j
      | none =>
        have hupd : update st m c q =
            (st ++ [[c]], m ++ [(newBucketIndex q 0, st.length)]) := by
          simp only [update]
          rw [hcur, hdel, hadd]
        rw [hupd]
        exact memBucket_addNone_ne st st m c x _ hvalid hx rfl hst1 j

/-! ### The add step of `update`, for the updated card itself -/

theorem memBucket_addSome_self (st st1 : Store) (m : BucketMap) (c : Card) (nb : Nat)
    (radd rdel : SetRef)
    (hrefs : (m.map Prod.snd).Nodup)
    (hvalid : ∀ e ∈ m, e.2 < st.length)
    (hadd : jsMapGet m nb = some radd)
    (hlen : st1.length = st.length)
    (hc1 : ∀ rr, rr < st.length → (c ∈ storeGet st1 rr ↔ (c ∈ storeGet st rr ∧ rr ≠ rdel)))
    (j : Nat) :
    memBucket (st1.set radd (setAdd (storeGet st1 radd) c)) m j c = true ↔
      (j = nb ∨ (memBucket st m j c = true ∧ jsMapGet m j ≠ some rdel)) := by
  have hmem_add : (nb, radd) ∈ m := mem_of_jsMapGet_eq_some hadd
  have hraddv : radd < st.length := hvalid _ hmem_add
  cases hj : jsMapGet m j with
  | none =>
    have hjn : j ≠ nb := by
      intro h; rw [h, hadd] at hj; exact Option.noConfusion hj
    simp [memBucket_of_get_none hj, hjn]
  | some rj =>
    have hmemj : (j, rj) ∈ m := mem_of_jsMapGet_eq_some hj
    have hrjv : rj < st.length := hvalid _ hmemj
    rw [memBucket_of_get_some hj, storeGet_set_cases st1 radd _ rj (hlen ▸ hraddv)]
    by_cases hrr : rj = radd
    · subst hrr
      have hjnb : j = nb := by
        simpa using entry_eq_of_snd hrefs hmemj hmem_add rfl
      rw [if_pos rfl]
      exact iff_of_true (self_mem_setAdd _ c) (Or.inl hjnb)
    · have hjnb : j ≠ nb := by
        intro h
        subst h
        rw [hadd] at hj
        exact hrr (Eq.symm (by simpa using hj))
      have h2 : (some rj ≠ some rdel) ↔ rj ≠ rdel := by simp
      rw [if_neg hrr, hc1 rj hrjv]
      constructor
      · rintro ⟨hcm, hrd⟩
        exact Or.inr ⟨(memBucket_of_get_some hj c).mpr hcm, h2.mpr hrd⟩
      · rintro (h | ⟨hmb, hne⟩)
        · exact absurd h hjnb
        · exact ⟨(memBucket_of_get_some hj c).mp hmb, h2.mp hne⟩

theorem memBucket_addNone_self (st st1 : Store) (m : BucketMap) (c : Card) (nb : Nat)
    (rdel : SetRef)
    (hvalid : ∀ e ∈ m, e.2 < st.length)
    (hadd : jsMapGet m nb = none)
    (hlen : st1.length = st.length)
    (hc1 : ∀ rr, rr < st.length → (c ∈ storeGet st1 rr ↔ (c ∈ storeGet st rr ∧ rr ≠ rdel)))
    (j : Nat) :
    memBucket (st1 ++ [[c]]) (m ++ [(nb, st1.length)]) j c = true ↔
      (j = nb ∨ (memBucket st m j c = true ∧ jsMapGet m j ≠ some rdel)) := by
  have hnbkeys : ∀ e ∈ m, e.1 ≠ nb := (jsMapGet_eq_none_iff m nb).mp hadd
  cases hj : jsMapGet m j with
  | some rj =>
    have hmemj : (j, rj) ∈ m := mem_of_jsMapGet_eq_some hj
    have hrjv : rj < st.length := hvalid _ hmemj
    have hjnb : j ≠ nb := hnbkeys _ hmemj
    rw [memBucket_of_get_some (jsMapGet_append_of_some hj),
      storeGet_append_lt st1 [[c]] rj (hlen ▸ hrjv), hc1 rj hrjv]
    have h2 : (some rj ≠ some rdel) ↔ rj ≠ rdel := by simp
    constructor
    · rintro ⟨hcm, hrd⟩
      exact Or.inr ⟨(memBucket_of_get_some hj c).mpr hcm, h2.mpr hrd⟩
    · rintro (h | ⟨hmb, hne⟩)
      · exact absurd h hjnb
      · exact ⟨(memBucket_of_get_some hj c).mp hmb, h2.mp hne⟩
  | none =>
    have happ : jsMapGet (m ++ [(nb, st1.length)]) j = jsMapGet [(nb, st1.length)] j :=
      jsMapGet_append_of_none hj
    by_cases hnj : nb = j
    · subst hnj
      have hget : jsMapGet (m ++ [(nb, st1.length)]) nb = some st1.length := by
        rw [happ]; exact jsMapGet_singleton_self nb st1.length
      rw [memBucket_of_get_some hget, storeGet_append_self]
      simp
    · have hget : jsMapGet (m ++ [(nb, st1.length)]) j = none := by
        rw [happ]; exact jsMapGet_singleton_ne nb j _ hnj
      have hjnb : j ≠ nb := fun h => hnj (Eq.symm h)
      simp [memBucket_of_get_none hget, memBucket_of_get_none hj, hjnb]

/-- Position of the updated card in the returned map: it lies in the new
bucket, and stays in any bucket other than the scanned current one that
already contained it (with a well-formed map and the one-bucket
invariant there is no such other bucket). -/
theorem update_moves_card_mem (st : Store) (m : BucketMap) (c : Card) (q : AnswerDifficulty)
    (hwf : wfMap st m) (j : Nat) :
    memBucket (update st m c q).1 (update st m c q).2 j c = true ↔
      (j = newBucketIndex q (findCurrentBucket st m c) ∨
        (memBucket st m j c = true ∧ j ≠ findCurrentBucket st m c)) := by
  obtain ⟨hkeys, hrefs, hvalid, hnodup⟩ := hwf
  cases hf : m.find? (fun e => (storeGet st e.2).contains c) with
  | some e =>
    have he : e ∈ m := List.mem_of_find?_eq_some hf
    have hcur : findCurrentBucket st m c = e.1 := by unfold findCurrentBucket; rw [hf]
    have hee : (e.1, e.2) ∈ m := by rw [Prod.mk.eta]; exact he
    have hre : jsMapGet m e.1 = some e.2 := jsMapGet_eq_some_of_mem hkeys hee
    have hev : e.2 < st.length := hvalid e he
    set st1 := st.set e.2 ((storeGet st e.2).erase c) with hst1def
    have hlen : st1.length = st.length := by rw [hst1def]; exact length_storeSet st e.2 _
    have hc1 : ∀ rr, rr < st.length →
        (c ∈ storeGet st1 rr ↔ (c ∈ storeGet st rr ∧ rr ≠ e.2)) := by
      intro rr hrr
      rw [hst1def, storeGet_set_cases st e.2 _ rr hev]
      by_cases hre2 : rr = e.2
      · rw [if_pos hre2]
        simp [hre2, not_mem_erase_self (hnodup e he)]
      · rw [if_neg hre2]
        simp [hre2]
    have hconv : ∀ jj, ((memBucket st m jj c = true ∧ jsMapGet m jj ≠ some e.2) ↔
        (memBucket st m jj c = true ∧ jj ≠ e.1)) := by
      intro jj
      constructor
      · rintro ⟨hmb, hne⟩
        refine ⟨hmb, ?_⟩
        intro hje
        subst hje
        exact hne hre
      · rintro ⟨hmb, hne⟩
        refine ⟨hmb, ?_⟩
        intro hg
        have hmm : (jj, e.2) ∈ m := mem_of_jsMapGet_eq_some hg
        have h3 := entry_eq_of_snd hrefs hmm hee rfl
        exact hne (congrArg Prod.fst h3)
    rw [hcur]
    cases hadd : jsMapGet m (newBucketIndex q e.1) with
    | some radd =>
      have hupd : update st m c q = (st1.set radd (setAdd (storeGet st1 radd) c), m) := by
        rw [hst1def]; simp only [update]; rw [hcur, hre, hadd]
      rw [hupd,
        memBucket_addSome_self st st1 m c _ radd e.2 hrefs hvalid hadd hlen hc1 j,
        hconv j]
    | none =>
      have hupd : update st m c q =
          (st1 ++ [[c]], m ++ [(newBucketIndex q e.1, st1.length)]) := by
        rw [hst1def]; simp only [update]; rw [hcur, hre, hadd]
      rw [hupd,
        memBucket_addNone_self st st1 m c _ e.2 hvalid hadd hlen hc1 j,
        hconv j]
  | none =>
    have hnf : ∀ e ∈ m, c ∉ storeGet st e.2 := by
      intro e he
      have := List.find?_eq_none.mp hf e he
      simpa using this
    have hcur : findCurrentBucket st m c = 0 := by unfold findCurrentBucket; rw [hf]
    have hmb0 : ∀ jj, memBucket st m jj c = false := by
      intro jj
      cases hj : jsMapGet m jj with
      | none => exact memBucket_of_get_none hj c
      | some rj =>
        have hno : c ∉ storeGet st rj := hnf _ (mem_of_jsMapGet_eq_some hj)
        unfold memBucket
        rw [hj]
        simpa using hno
    rw [hcur]
    cases hdel : jsMapGet m 0 with
    | some r0 =>
      have hr0 : (0, r0) ∈ m := mem_of_jsMapGet_eq_some hdel
      have hc0 : c ∉ storeGet st r0 := hnf _ hr0
      have herase : (storeGet st r0).erase c = storeGet st r0 := List.erase_of_not_mem hc0
      have hr0v : r0 < st.length := hvalid _ hr0
      set st1 := st.set r0 ((storeGet st r0).erase c) with hst1def
      have hlen : st1.length = st.length := by rw [hst1def]; exact length_storeSet st r0 _
      have hst1x : ∀ rr, rr < st.length → storeGet st1 rr = storeGet st rr := by
        intro rr hrr
        rw [hst1def, storeGet_set_cases st r0 _ rr hr0v]
        by_cases h2 : rr = r0
        · rw [if_pos h2, h2, herase]
        · rw [if_neg h2]
      have hc1 : ∀ rr, rr < st.length →
          (c ∈ storeGet st1 rr ↔ (c ∈ storeGet st rr ∧ rr ≠ st.length)) := by
        intro rr hrr
        rw [hst1x rr hrr]
        simp [Nat.ne_of_lt hrr]
      cases hadd : jsMapGet m (newBucketIndex q 0) with
      | some radd =>
        have hupd : update st m c q = (st1.set radd (setAdd (storeGet st1 radd) c), m) := by
          rw [hst1def]; simp only [update]; rw [hcur, hdel, hadd]
        rw [hupd,
          memBucket_addSome_self st st1 m c _ radd st.length hrefs hvalid hadd hlen hc1 j]
        simp [hmb0 j]
      | none =>
        have hupd : update st m c q =
            (st1 ++ [[c]], m ++ [(newBucketIndex q 0, st1.length)]) := by
          rw [hst1def]; simp only [update]; rw [hcur, hdel, hadd]
        rw [hupd,
          memBucket_addNone_self st st1 m c _ st.length hvalid hadd hlen hc1 j]
        simp [hmb0 j]
    | none =>
      have hc1 : ∀ rr, rr < st.length →
          (c ∈ storeGet st rr ↔ (c ∈ storeGet st rr ∧ rr ≠ st.length)) := by
        intro rr hrr
        simp [Nat.ne_of_lt hrr]
      cases hadd : jsMapGet m (newBucketIndex q 0) with
      | some radd =>
        have hupd : update st m c q = (st.set radd (setAdd (storeGet st radd) c), m) := by
          simp only [update]; rw [hcur, hdel, hadd]
        rw [hupd,
          memBucket_addSome_self st st m c _ radd st.length hrefs hvalid hadd rfl hc1 j]
        simp [hmb0 j]
      | none =>
        have hupd : update st m c q =
            (st ++ [[c]], m ++ [(newBucketIndex q 0, st.length)]) := by
          simp only [update]; rw [hcur, hdel, hadd]
        rw [hupd,
          memBucket_addNone_self st st m c _ st.length hvalid hadd rfl hc1 j]
        simp [hmb0 j]

/-! ### Shape of the returned map and the one-bucket invariant -/

theorem update_snd_shape (st : Store) (m : BucketMap) (c : Card) (q : AnswerDifficulty) :
    (update st m c q).2 = m ∨
      (∃ len, (update st m c q).2 =
          m ++ [(newBucketIndex q (findCurrentBucket st m c), len)] ∧
        jsMapGet m (newBucketIndex q (findCurrentBucket st m c)) = none) := by
  simp only [update]
  cases hadd : jsMapGet m (newBucketIndex q (findCurrentBucket st m c)) with
  | some r => left; rfl
  | none => right; exact ⟨_, rfl, rfl⟩

theorem update_keys_nodup (st : Store) (m : BucketMap) (c : Card) (q : AnswerDifficulty)
    (hkeys : (m.map Prod.fst).Nodup) :
    (((update st m c q).2).map Prod.fst).Nodup := by
  rcases update_snd_shape st m c q with h | ⟨len, h, hnone⟩
  · rw [h]; exact hkeys
  · rw [h]
    have hnb : ∀ e ∈ m, e.1 ≠ newBucketIndex q (findCurrentBucket st m c) :=
      (jsMapGet_eq_none_iff m _).mp hnone
    simp only [List.map_append]
    rw [List.nodup_append]
    refine ⟨hkeys, by simp, ?_⟩
    intro a ha hb
    simp only [List.map_cons, List.map_nil, List.mem_singleton] at hb
    obtain ⟨e, he, rfl⟩ := List.mem_map.mp ha
    exact hnb e he hb

theorem disjointBuckets_of_memBucket (st : Store) (m : BucketMap)
    (hkeys : (m.map Prod.fst).Nodup)
    (h : ∀ x j1 j2, memBucket st m j1 x = true → memBucket st m j2 x = true → j1 = j2) :
    disjointBuckets st m := by
  intro e1 h1 e2 h2 hne x hx1 hx2
  apply hne
  have g1 : jsMapGet m e1.1 = some e1.2 :=
    jsMapGet_eq_some_of_mem hkeys (by rw [Prod.mk.eta]; exact h1)
  have g2 : jsMapGet m e2.1 = some e2.2 :=
    jsMapGet_eq_some_of_mem hkeys (by rw [Prod.mk.eta]; exact h2)
  exact h x e1.1 e2.1 ((memBucket_of_get_some g1 x).mpr hx1)
    ((memBucket_of_get_some g2 x).mpr hx2)

theorem memBucket_unique_of_disjoint (st : Store) (m : BucketMap)
    (hdisj : disjointBuckets st m) (x : Card) (j1 j2 : Nat)
    (h1 : memBucket st m j1 x = true) (h2 : memBucket st m j2 x = true) : j1 = j2 := by
  cases hg1 : jsMapGet m j1 with
  | none => rw [memBucket_of_get_none hg1] at h1; simp at h1
  | some r1 =>
    cases hg2 : jsMapGet m j2 with
    | none => rw [memBucket_of_get_none hg2] at h2; simp at h2
    | some r2 =>
      have hx1 : x ∈ storeGet st r1 := (memBucket_of_get_some hg1 x).mp h1
      have hx2 : x ∈ storeGet st r2 := (memBucket_of_get_some hg2 x).mp h2
      by_contra hne
      exact hdisj (j1, r1) (mem_of_jsMapGet_eq_some hg1) (j2, r2)
        (mem_of_jsMapGet_eq_some hg2) hne x hx1 hx2

theorem memBucket_eq_findCurrent (st : Store) (m : BucketMap) (c : Card)
    (hkeys : (m.map Prod.fst).Nodup) (hdisj : disjointBuckets st m)
    (j : Nat) (hj : memBucket st m j c = true) : j = findCurrentBucket st m c := by
  cases hf : m.find? (fun e => (storeGet st e.2).contains c) with
  | none =>
    exfalso
    cases hg : jsMapGet m j with
    | none => rw [memBucket_of_get_none hg] at hj; simp at hj
    | some r =>
      have hmem : (j, r) ∈ m := mem_of_jsMapGet_eq_some hg
      have hnc := List.find?_eq_none.mp hf (j, r) hmem
      have hcx : c ∈ storeGet st r := (memBucket_of_get_some hg c).mp hj
      simp at hnc
      exact hnc hcx
  | some e =>
    have he : e ∈ m := List.mem_of_find?_eq_some hf
    have hpe : c ∈ storeGet st e.2 := by simpa using List.find?_some hf
    have hcur : findCurrentBucket st m c = e.1 := by unfold findCurrentBucket; rw [hf]
    rw [hcur]
    have hmbe : memBucket st m e.1 c = true :=
      (memBucket_of_get_some
        (jsMapGet_eq_some_of_mem hkeys (by rw [Prod.mk.eta]; exact he)) c).mpr hpe
    exact memBucket_unique_of_disjoint st m hdisj c j e.1 hj hmbe

/-! ### Theorems for the claims about `update` -/

/-- C1: the specification guarantees that the map returned by `update`
is independent of the input map, so that after `update(M, card, Easy)`
the original map `M` still reports `card` in its original bucket.  The
code violates this: on M = \x7b0: \x7bA\x7d\x7d (card A stored in the
set object at address 0), A is in bucket 0 of M before the call, but
after running `update(M, A, Easy)` the original map M no longer
contains A anywhere — `new Map(buckets)` copies only the key/set-object
pairs, so the `delete` on the shared set empties M's bucket as well.
The code's own comment says it creates "a new copy of the bucket map",
so this is a slip in the code, not in the specification. -/
theorem update_mutates_original_map :
    memBucket [[1]] [(0, 0)] 0 1 = true ∧
    memBucket (update [[1]] [(0, 0)] 1 .Easy).1 [(0, 0)] 0 1 = false := by
  decide

/-- C3: on a well-formed map in which card `c` lies in bucket `b` (and
in no other bucket), the returned map reports `c` exactly in the bucket
determined by the answer quality: `b+1` for Easy, `b` for Hard, `0` for
Wrong. -/
theorem update_moves_card (st : Store) (m : BucketMap) (c : Card) (b : Nat)
    (q : AnswerDifficulty) (hwf : wfMap st m)
    (hb : memBucket st m b c = true)
    (honly : ∀ e ∈ m, c ∈ storeGet st e.2 → e.1 = b) (j : Nat) :
    memBucket (update st m c q).1 (update st m c q).2 j c = true ↔
      j = newBucketIndex q b := by
  have hcur := findCurrentBucket_eq st m c b hb honly
  rw [update_moves_card_mem st m c q hwf j, hcur]
  constructor
  · rintro (h | ⟨hmb, hne⟩)
    · exact h
    · exfalso
      apply hne
      cases hj : jsMapGet m j with
      | none => rw [memBucket_of_get_none hj] at hmb; simp at hmb
      | some rj =>
        have hcj : c ∈ storeGet st rj := (memBucket_of_get_some hj c).mp hmb
        exact honly (j, rj) (mem_of_jsMapGet_eq_some hj) hcj
  · exact fun h => Or.inl h

/-- Witness for C3: the scenario of the spec, map \x7b0: \x7bA\x7d, 2:
\x7bB\x7d\x7d with A = card 1 at address 0 and B = card 2 at address 1;
`update(map, A, Easy)` puts A in bucket 1. -/
theorem update_moves_card_witness :
    memBucket (update [[1], [2]] [(0, 0), (2, 1)] 1 .Easy).1
      (update [[1], [2]] [(0, 0), (2, 1)] 1 .Easy).2 1 1 = true :=
  (update_moves_card [[1], [2]] [(0, 0), (2, 1)] 1 0 .Easy (by decide) (by decide)
    (by decide) 1).mpr (by decide)

/-- C4: `update` is a total function (it is defined by structural
cases, never by a partial lookup), and a card found in no bucket of the
map is treated as being in bucket 0: it lands in bucket 1 on Easy and
in bucket 0 on Hard or Wrong. -/
theorem update_unknown_card (st : Store) (m : BucketMap) (c : Card) (q : AnswerDifficulty)
    (hwf : wfMap st m)
    (hnone : ∀ e ∈ m, c ∉ storeGet st e.2) :
    memBucket (update st m c q).1 (update st m c q).2
      (if q = .Easy then 1 else 0) c = true := by
  have hcur := findCurrentBucket_eq_zero st m c hnone
  rw [update_moves_card_mem st m c q hwf _, hcur]
  left
  cases q <;> decide

/-- Witness for C4: updating a card that is in no bucket of
\x7b0: \x7bcard 7\x7d\x7d with Easy puts it in bucket 1. -/
theorem update_unknown_card_witness :
    memBucket (update [[7]] [(0, 0)] 5 .Easy).1 (update [[7]] [(0, 0)] 5 .Easy).2
      1 5 = true := by
  simpa using update_unknown_card [[7]] [(0, 0)] 5 .Easy (by decide) (by decide)

/-- C10: on a well-formed map in which every card lies in at most one
bucket, the map returned by `update` keeps that invariant, for every
card and answer quality. -/
theorem update_preserves_one_bucket (st : Store) (m : BucketMap) (c : Card)
    (q : AnswerDifficulty) (hwf : wfMap st m) (hdisj : disjointBuckets st m) :
    disjointBuckets (update st m c q).1 (update st m c q).2 := by
  apply disjointBuckets_of_memBucket _ _ (update_keys_nodup st m c q hwf.1)
  intro x j1 j2 h1 h2
  by_cases hx : x = c
  · subst hx
    rw [update_moves_card_mem st m x q hwf j1] at h1
    rw [update_moves_card_mem st m x q hwf j2] at h2
    have hforce : ∀ jj, memBucket st m jj x = true → jj = findCurrentBucket st m x :=
      fun jj hjj => memBucket_eq_findCurrent st m x hwf.1 hdisj jj hjj
    rcases h1 with h1 | ⟨hmb1, hne1⟩
    · rcases h2 with h2 | ⟨hmb2, hne2⟩
      · rw [h1, h2]
      · exact absurd (hforce j2 hmb2) hne2
    · exact absurd (hforce j1 hmb1) hne1
  · rw [update_preserves_other_cards st m c x q hwf hx j1] at h1
    rw [update_preserves_other_cards st m c x q hwf hx j2] at h2
    exact memBucket_unique_of_disjoint st m hdisj x j1 j2 h1 h2

/-- Witness for C10: the invariant holds after the spec's example
transition on \x7b0: \x7bA\x7d, 2: \x7bB\x7d\x7d. -/
theorem update_preserves_one_bucket_witness :
    disjointBuckets (update [[1], [2]] [(0, 0), (2, 1)] 1 .Easy).1
      (update [[1], [2]] [(0, 0), (2, 1)] 1 .Easy).2 :=
  update_preserves_one_bucket [[1], [2]] [(0, 0), (2, 1)] 1 .Easy (by decide) (by decide)

/-! ### `practice`: the due-set selector -/

theorem mem_addAll (s acc : CardSet) (x : Card) :
    x ∈ addAll acc s ↔ x ∈ acc ∨ x ∈ s := by
  induction s generalizing acc with
  | nil => simp [addAll]
  | cons a t ih =>
    have hstep : addAll acc (a :: t) = addAll (setAdd acc a) t := rfl
    rw [hstep, ih, mem_setAdd]
    simp [List.mem_cons]
    tauto

theorem mem_practiceStep (buckets : List CardSet) (day : Nat) (acc : CardSet) (i : Nat)
    (x : Card) :
    x ∈ practiceStep buckets day acc i ↔
      x ∈ acc ∨ ((i = 0 ∨ day % 2 ^ i = 0) ∧ x ∈ buckets.getD i []) := by
  unfold practiceStep
  by_cases h0 : i = 0
  · rw [if_pos h0, mem_addAll]
    simp [h0]
  · rw [if_neg h0]
    by_cases hd : day % 2 ^ i = 0
    · rw [if_pos hd, mem_addAll]
      simp [h0, hd]
    · rw [if_neg hd]
      simp [h0, hd]

theorem mem_practice_foldl (buckets : List CardSet) (day : Nat) (idxs : List Nat)
    (acc : CardSet) (x : Card) :
    x ∈ idxs.foldl (practiceStep buckets day) acc ↔
      x ∈ acc ∨ ∃ i ∈ idxs, (i = 0 ∨ day % 2 ^ i = 0) ∧ x ∈ buckets.getD i [] := by
  induction idxs generalizing acc with
  | nil => simp
  | cons a t ih =>
    rw [List.foldl_cons, ih, mem_practiceStep, List.exists_mem_cons_iff]
    exact or_assoc

/-- C5: `practice` returns exactly the cards whose bucket is due on the
given day — bucket 0 unconditionally, bucket i ≥ 1 exactly when
day mod 2^i = 0 — and on day 0 it returns the union of all buckets. -/
theorem practice_mem (buckets : List CardSet) (day : Nat) (x : Card) :
    (x ∈ practice buckets day ↔
      ∃ i, i < buckets.length ∧ (i = 0 ∨ day % 2 ^ i = 0) ∧ x ∈ buckets.getD i []) ∧
    (x ∈ practice buckets 0 ↔ ∃ i, i < buckets.length ∧ x ∈ buckets.getD i []) := by
  constructor
  · unfold practice
    rw [mem_practice_foldl]
    simp [List.mem_range]
  · unfold practice
    rw [mem_practice_foldl]
    simp [List.mem_range]

/-! ### `getBucketRange`: the range finder -/

theorem rangeLoop_spec (buckets : List CardSet) (n : Nat) :
    (((List.range n).foldl (rangeStep buckets) (none, none)).1 = none ↔
      ∀ i, i < n → ¬ occupied buckets i) ∧
    (∀ a, ((List.range n).foldl (rangeStep buckets) (none, none)).1 = some a →
      occupied buckets a ∧ a < n ∧ ∀ i, i < n → occupied buckets i → a ≤ i) ∧
    (∀ b, ((List.range n).foldl (rangeStep buckets) (none, none)).2 = some b →
      occupied buckets b ∧ b < n ∧ ∀ i, i < n → occupied buckets i → i ≤ b) ∧
    ((((List.range n).foldl (rangeStep buckets) (none, none)).1 = none) ↔
      (((List.range n).foldl (rangeStep buckets) (none, none)).2 = none)) := by
  induction n with
  | zero => simp
  | succ n ih =>
    rw [List.range_succ, List.foldl_append, List.foldl_cons, List.foldl_nil]
    set p := (List.range n).foldl (rangeStep buckets) (none, none) with hp
    obtain ⟨ih1, ih2, ih3, ih4⟩ := ih
    by_cases hocc : occupied buckets n
    · have hocc2 : (buckets.getD n []).length > 0 := hocc
      cases hp1 : p.1 with
      | none =>
        have hp2 : p.2 = none := ih4.mp hp1
        have hres : rangeStep buckets p n = (some n, some n) := by
          simp only [rangeStep]
          rw [if_pos hocc2, hp1, hp2]
        rw [hres]
        refine ⟨?_, ?_, ?_, ?_⟩
        · constructor
          · intro h
            exact absurd h (by simp)
          · intro h
            exact absurd hocc (h n (Nat.lt_succ_self n))
        · intro a ha
          have han : n = a := by simpa using ha
          rw [← han]
          refine ⟨hocc, Nat.lt_succ_self n, ?_⟩
          intro i hi hoi
          rcases Nat.lt_succ_iff_lt_or_eq.mp hi with hlt | rfl
          · exact absurd hoi (ih1.mp hp1 i hlt)
          · omega
        · intro b hb
          have hbn : n = b := by simpa using hb
          rw [← hbn]
          refine ⟨hocc, Nat.lt_succ_self n, ?_⟩
          intro i hi hoi
          exact Nat.lt_succ_iff.mp hi
        · simp
      | some a =>
        cases hp2 : p.2 with
        | none => exact absurd (ih4.mpr hp2) (by simp [hp1])
        | some b =>
          obtain ⟨hocca, haltn, hamin⟩ := ih2 a hp1
          obtain ⟨hoccb, hbltn, hbmax⟩ := ih3 b hp2
          have hna : ¬ n < a := by omega
          have hres : rangeStep buckets p n = (some a, some n) := by
            simp only [rangeStep]
            rw [if_pos hocc2, hp1, hp2]
            show (if n < a then some n else some a,
              if b < n then some n else some b) = (some a, some n)
            rw [if_neg hna, if_pos hbltn]
          rw [hres]
          refine ⟨?_, ?_, ?_, ?_⟩
          · constructor
            · intro h
              exact absurd h (by simp)
            · intro h
              exact absurd hocc (h n (Nat.lt_succ_self n))
          · intro a2 ha2
            have haa : a = a2 := by simpa using ha2
            rw [← haa]
            refine ⟨hocca, by omega, ?_⟩
            intro i hi hoi
            rcases Nat.lt_succ_iff_lt_or_eq.mp hi with hlt | rfl
            · exact hamin i hlt hoi
            · omega
          · intro b2 hb2
            have hbb : n = b2 := by simpa using hb2
            rw [← hbb]
            refine ⟨hocc, Nat.lt_succ_self n, ?_⟩
            intro i hi hoi
            exact Nat.lt_succ_iff.mp hi
          · simp
    · have hocc2 : ¬ (buckets.getD n []).length > 0 := hocc
      have hres : rangeStep buckets p n = p := by
        simp only [rangeStep]
        rw [if_neg hocc2]
      rw [hres]
      refine ⟨?_, ?_, ?_, ?_⟩
      · rw [ih1]
        constructor
        · intro h i hi hoi
          rcases Nat.lt_succ_iff_lt_or_eq.mp hi with hlt | rfl
          · exact h i hlt hoi
          · exact hocc hoi
        · intro h i hi hoi
          exact h i (Nat.lt_succ_of_lt hi) hoi
      · intro a ha
        obtain ⟨hocca, haltn, hamin⟩ := ih2 a ha
        refine ⟨hocca, Nat.lt_succ_of_lt haltn, ?_⟩
        intro i hi hoi
        rcases Nat.lt_succ_iff_lt_or_eq.mp hi with hlt | rfl
        · exact hamin i hlt hoi
        · exact absurd hoi hocc
      · intro b hb
        obtain ⟨hoccb, hbltn, hbmax⟩ := ih3 b hb
        refine ⟨hoccb, Nat.lt_succ_of_lt hbltn, ?_⟩
        intro i hi hoi
        rcases Nat.lt_succ_iff_lt_or_eq.mp hi with hlt | rfl
        · exact hbmax i hlt hoi
        · exact absurd hoi hocc
      · exact ih4

/-- C6: `getBucketRange` returns `undefined` exactly when no index is
occupied (including the zero-length array), and otherwise the pair of
the minimum and maximum occupied indices — in particular `(i, i)` when
exactly one index `i` is occupied. -/
theorem getBucketRange_spec (buckets : List CardSet) :
    (getBucketRange buckets = none ↔
      ∀ i, i < buckets.length → ¬ occupied buckets i) ∧
    (∀ a b, getBucketRange buckets = some (a, b) →
      occupied buckets a ∧ occupied buckets b ∧
      ∀ i, i < buckets.length → occupied buckets i → a ≤ i ∧ i ≤ b) := by
  obtain ⟨h1, h2, h3, h4⟩ := rangeLoop_spec buckets buckets.length
  cases hp1 : ((List.range buckets.length).foldl (rangeStep buckets) (none, none)).1 with
  | none =>
    have hgbr : getBucketRange buckets = none := by
      simp only [getBucketRange]
      rw [hp1]
    rw [hgbr]
    constructor
    · constructor
      · intro _
        exact h1.mp hp1
      · intro _
        rfl
    · intro a b hab
      exact absurd hab (by simp)
  | some mn =>
    cases hp2 : ((List.range buckets.length).foldl (rangeStep buckets) (none, none)).2 with
    | none => exact absurd (h4.mpr hp2) (by simp [hp1])
    | some mx =>
      have hgbr : getBucketRange buckets = some (mn, mx) := by
        simp only [getBucketRange]
        rw [hp1, hp2]
      obtain ⟨hoccn, hltn, hmin⟩ := h2 mn hp1
      obtain ⟨hoccx, hltx, hmax⟩ := h3 mx hp2
      rw [hgbr]
      constructor
      · constructor
        · intro h
          exact absurd h (by simp)
        · intro h
          exact absurd hoccn (h mn hltn)
      · intro a b hab
        have hinj := Option.some.inj hab
        have hha : mn = a := congrArg Prod.fst hinj
        have hhb : mx = b := congrArg Prod.snd hinj
        rw [← hha, ← hhb]
        refine ⟨hoccn, hoccx, ?_⟩
        intro i hi hoi
        exact ⟨hmin i hi hoi, hmax i hi hoi⟩

/-! ### `computeProgress`: the progress aggregator -/

theorem progress_foldl (buckets : List CardSet) (t : Nat) (d : List Nat) :
    buckets.foldl (fun acc s => (acc.1 + s.length, acc.2 ++ [s.length])) (t, d) =
      (t + (buckets.map List.length).sum, d ++ buckets.map List.length) := by
  induction buckets generalizing t d with
  | nil => simp
  | cons s rest ih =>
    rw [List.foldl_cons, ih]
    simp [Nat.add_assoc]

/-- C7: `computeProgress` returns the sum of the bucket sizes as
`totalCards`, the total minus the size of bucket 0 as `learnedCards`
(zero for the empty array, whose bucket 0 contributes size 0), and the
ordered list of per-bucket counts, of the same length as the input, as
`bucketDistribution`. -/
theorem computeProgress_spec {α : Type} (buckets : List CardSet) (history : α) :
    (computeProgress buckets history).totalCards = (buckets.map List.length).sum ∧
    (computeProgress buckets history).learnedCards =
      (buckets.map List.length).sum - (buckets.getD 0 []).length ∧
    (computeProgress buckets history).bucketDistribution = buckets.map List.length ∧
    (computeProgress buckets history).bucketDistribution.length = buckets.length := by
  simp only [computeProgress]
  rw [progress_foldl]
  simp

/-- C9: the optional review-history argument has no influence on the
statistics computed by `computeProgress` — it is never read. -/
theorem computeProgress_ignores_history {α β : Type} (buckets : List CardSet)
    (h1 : α) (h2 : β) :
    computeProgress buckets h1 = computeProgress buckets h2 := rfl

/-! ### `toBucketSets`: the representation converter -/

/-- C2 as stated fails on the code: `toBucketSets` of the empty map is
not the empty array.  The `maxBucket` scan starts at 0 even when there
is no key, so the construction loop runs once and produces a one-slot
array. -/
theorem toBucketSets_empty_not_nil :
    (toBucketSets ([] : List (Nat × CardSet))).length ≠ 0 := by decide

/-- C2 amended: `toBucketSets` of the empty map is the one-element
array holding a single freshly created empty set. -/
theorem toBucketSets_empty_eq :
    toBucketSets ([] : List (Nat × CardSet)) = [[]] := by decide

theorem maxKeyOf_aux (m : List (Nat × CardSet)) (a : Nat) :
    a ≤ m.foldl (fun acc e => if acc < e.1 then e.1 else acc) a ∧
    (∀ e ∈ m, e.1 ≤ m.foldl (fun acc e => if acc < e.1 then e.1 else acc) a) ∧
    (m.foldl (fun acc e => if acc < e.1 then e.1 else acc) a = a ∨
      ∃ e ∈ m, m.foldl (fun acc e => if acc < e.1 then e.1 else acc) a = e.1) := by
  induction m generalizing a with
  | nil => simp
  | cons e t ih =>
    simp only [List.foldl_cons]
    by_cases h : a < e.1
    · rw [if_pos h]
      obtain ⟨g1, g2, g3⟩ := ih e.1
      refine ⟨le_trans (le_of_lt h) g1, ?_, ?_⟩
      · intro e2 he2
        rcases List.mem_cons.mp he2 with rfl | h2
        · exact g1
        · exact g2 e2 h2
      · rcases g3 with g3 | ⟨e2, he2, hg⟩
        · right; exact ⟨e, List.mem_cons_self e t, g3⟩
        · right; exact ⟨e2, List.mem_cons_of_mem e he2, hg⟩
    · rw [if_neg h]
      obtain ⟨g1, g2, g3⟩ := ih a
      have hle : e.1 ≤ a := Nat.le_of_not_lt h
      refine ⟨g1, ?_, ?_⟩
      · intro e2 he2
        rcases List.mem_cons.mp he2 with rfl | h2
        · exact le_trans hle g1
        · exact g2 e2 h2
      · rcases g3 with g3 | ⟨e2, he2, hg⟩
        · left; exact g3
        · right; exact ⟨e2, List.mem_cons_of_mem e he2, hg⟩

theorem maxKeyOf_ge (m : List (Nat × CardSet)) : ∀ e ∈ m, e.1 ≤ maxKeyOf m :=
  (maxKeyOf_aux m 0).2.1

theorem maxKeyOf_attained (m : List (Nat × CardSet)) (hne : m ≠ []) :
    ∃ e ∈ m, e.1 = maxKeyOf m := by
  rcases (maxKeyOf_aux m 0).2.2 with h | ⟨e, he, hg⟩
  · cases m with
    | nil => exact absurd rfl hne
    | cons e t =>
      refine ⟨e, List.mem_cons_self e t, ?_⟩
      have hge := maxKeyOf_ge (e :: t) e (List.mem_cons_self e t)
      unfold maxKeyOf at *
      omega
  · exact ⟨e, he, hg.symm⟩

theorem toBucketSets_getD (m : List (Nat × CardSet)) (i : Nat) (h : i < maxKeyOf m + 1) :
    (toBucketSets m).getD i [] = (jsMapGet m i).getD [] := by
  unfold toBucketSets
  rw [List.getD_eq_getElem?_getD, List.getElem?_map, List.getElem?_range (by simpa using h)]
  rfl

/-- C8: on a non-empty map with unique keys, `toBucketSets` produces an
array of length maxKey+1 (`maxKeyOf` being the maximum of the keys)
whose slot i holds the map's set for key i when present and the empty
set otherwise.  The embedding is a pure function of the map, which
reflects that the source only reads its input. -/
theorem toBucketSets_spec (m : List (Nat × CardSet)) (hne : m ≠ [])
    (hkeys : (m.map Prod.fst).Nodup) :
    (toBucketSets m).length = maxKeyOf m + 1 ∧
    (∀ e ∈ m, e.1 ≤ maxKeyOf m) ∧
    (∃ e ∈ m, e.1 = maxKeyOf m) ∧
    (∀ k s, (k, s) ∈ m → (toBucketSets m).getD k [] = s) ∧
    (∀ i, i ≤ maxKeyOf m → (∀ e ∈ m, e.1 ≠ i) → (toBucketSets m).getD i [] = []) := by
  refine ⟨by simp [toBucketSets], maxKeyOf_ge m, maxKeyOf_attained m hne, ?_, ?_⟩
  · intro k s hks
    have hk : k ≤ maxKeyOf m := maxKeyOf_ge m (k, s) hks
    rw [toBucketSets_getD m k (by omega), jsMapGet_eq_some_of_mem hkeys hks]
    rfl
  · intro i hi hnone
    rw [toBucketSets_getD m i (by omega), (jsMapGet_eq_none_iff m i).mpr hnone]
    rfl

/-- Witness for C8: the spec's example map \x7b0: \x7bA\x7d, 2:
\x7bB\x7d\x7d yields a three-slot array with an empty middle slot. -/
theorem toBucketSets_spec_witness :
    (toBucketSets [(0, [1]), (2, [2])]).length = 3 ∧
    (toBucketSets [(0, [1]), (2, [2])]).getD 1 [] = [] := by
  have h := toBucketSets_spec [(0, [1]), (2, [2])] (by decide) (by decide)
  constructor
  · rw [h.1]; decide
  · exact h.2.2.2.2 1 (by decide) (by decide)

end Flashcards
